import Mathlib

/-!
Verification of the SimilarityFusion module (similarity network fusion,
`SimilarityFusion.py`).

The embedding models numpy arrays as Mathlib matrices over a linear ordered
field `α` (instantiated at `ℚ` for executable claims; floating-point values
are rationals, and the float division-by-zero cases are the junk value `0`
of field division, noted at each site where they can occur).  `np.partition`
and `np.argpartition` are partial sorts whose selected *multiset* is
specified independently of the selection algorithm; they are modelled by a
full insertion sort (ascending for `np.partition`; by descending value with
ascending-index tie-break for `np.argpartition`, a deterministic
representative of the unspecified tie order).
-/

namespace SimilarityFusion

variable {α : Type} [LinearOrderedField α] {n : ℕ}

/-- Model of `np.fill_diagonal(A, v)`: the matrix `A` with every diagonal
entry replaced by `v`.  (In the source this is an in-place write; the store
model below records that the write happens on a freshly allocated array.) -/
def fillDiagonal (A : Matrix (Fin n) (Fin n) α) (v : α) : Matrix (Fin n) (Fin n) α :=
  fun i j => if i = j then v else A i j

/-- Lines 22-23 of `getW`: `DSym = 0.5*(D + D.T); np.fill_diagonal(DSym, 0)`. -/
def DSym (D : Matrix (Fin n) (Fin n) α) : Matrix (Fin n) (Fin n) α :=
  fillDiagonal ((1 / 2 : α) • (D + D.transpose)) 0

/-- Line 25 of `getW` on a given (already symmetrized and diagonal-zeroed)
array `A`: `Neighbs = np.partition(A, K+1, 1)[:, 0:K+1]` — for each row,
the multiset of its `K+1` smallest entries (which is what the slice of the
partially sorted row holds, independently of how `np.partition` breaks
ties), modelled as the first `K+1` entries of the ascending-sorted row. -/
def neighbs0 (A : Matrix (Fin n) (Fin n) α) (K : ℕ) (i : Fin n) : List α :=
  ((List.ofFn (A i)).insertionSort (· ≤ ·)).take (K + 1)

/-- Line 25 of `getW` applied to the symmetrized matrix of `D`. -/
def neighbs (D : Matrix (Fin n) (Fin n) α) (K : ℕ) (i : Fin n) : List α :=
  neighbs0 (DSym D) K i

/-- Line 26 of `getW`: `MeanDist = np.mean(Neighbs, 1)*float(K+1)/float(K)`
(the scaling removes the zeroed diagonal entry from the mean). -/
def meanDist (D : Matrix (Fin n) (Fin n) α) (K : ℕ) (i : Fin n) : α :=
  (neighbs D K i).sum / ((K : α) + 1) * ((K : α) + 1) / (K : α)

/-- Lines 30-31 of `getW`:
`Eps = MeanDist[:, None] + MeanDist[None, :] + DSym; Eps = Eps/3`. -/
def eps (D : Matrix (Fin n) (Fin n) α) (K : ℕ) : Matrix (Fin n) (Fin n) α :=
  fun i j => (meanDist D K i + meanDist D K j + DSym D i j) / 3

/-- Line 32 of `getW`: the argument of the exponential,
`-DSym**2/(2*(Mu*Eps)**2)`.  When `Eps i j = 0` the float code produces
`nan` (if `DSym i j = 0`) or `-inf`; field division renders both as the junk
value `0`. -/
def getWExpArg (D : Matrix (Fin n) (Fin n) α) (K : ℕ) (Mu : α) :
    Matrix (Fin n) (Fin n) α :=
  fun i j => -(DSym D i j) ^ 2 / (2 * (Mu * eps D K i j) ^ 2)

/-- Lines 15-33: `getW(D, K, Mu)`, the affinity matrix
`W = np.exp(-DSym**2/(2*(Mu*Eps)**2))`.  Distance entries are modelled as
exact rationals; the exponential maps into `ℝ`. -/
noncomputable def getW (D : Matrix (Fin n) (Fin n) ℚ) (K : ℕ) (Mu : ℚ) :
    Matrix (Fin n) (Fin n) ℝ :=
  fun i j => Real.exp ((getWExpArg D K Mu i j : ℚ) : ℝ)

/-- Line 43 of `getWCSMSSM`: `k1 = int(K*float(N)/(M+N))`.  Python `int()`
truncates toward zero; the quotient is nonnegative, so this is the floor. -/
def getWCSMSSMk1 (N M K : ℕ) : ℤ :=
  Int.floor ((K : ℚ) * (N : ℚ) / ((M : ℚ) + (N : ℚ)))

/-- Line 44 of `getWCSMSSM`: `k2 = K - k1`. -/
def getWCSMSSMk2 (N M K : ℕ) : ℤ :=
  (K : ℤ) - getWCSMSSMk1 N M K

/-- Lines 79-80 of `getP` (the `diagRegularize = False` branch, the one the
fusion uses): `RowSum = np.sum(W, 1); RowSum[RowSum == 0] = 1`. -/
def rowSumRepl (W : Matrix (Fin n) (Fin n) α) (i : Fin n) : α :=
  if (∑ k, W i k) = 0 then 1 else ∑ k, W i k

/-- Lines 78-82: `getP(W)` with the default `diagRegularize = False`:
`P = W/RowSum[:, None]` after the zero row sums are replaced by `1`. -/
def getP (W : Matrix (Fin n) (Fin n) α) : Matrix (Fin n) (Fin n) α :=
  fun i j => W i j / rowSumRepl W i

/-- Ranking relation used to model `np.argpartition(-W, K, 1)` on row `i`:
sort by descending value, ties broken by ascending index (a deterministic
representative of numpy's unspecified tie order). -/
def rankRel (v : Fin n → α) (a b : Fin n) : Prop :=
  v b < v a ∨ (v a = v b ∧ a ≤ b)

instance rankRelDecidable (v : Fin n → α) : DecidableRel (rankRel v) := fun _ _ => by
  unfold rankRel; infer_instance

instance rankRelTotal (v : Fin n → α) : IsTotal (Fin n) (rankRel v) := by
  constructor
  intro a b
  rcases lt_trichotomy (v a) (v b) with h | h | h
  · exact Or.inr (Or.inl h)
  · rcases le_total a b with hab | hba
    · exact Or.inl (Or.inr ⟨h, hab⟩)
    · exact Or.inr (Or.inr ⟨h.symm, hba⟩)
  · exact Or.inl (Or.inl h)

instance rankRelTrans (v : Fin n → α) : IsTrans (Fin n) (rankRel v) := by
  constructor
  intro a b c hab hbc
  rcases hab with h1 | ⟨h1, h1i⟩ <;> rcases hbc with h2 | ⟨h2, h2i⟩
  · exact Or.inl (h2.trans h1)
  · exact Or.inl (h2 ▸ h1)
  · exact Or.inl (h1 ▸ h2)
  · exact Or.inr ⟨h1.trans h2, h1i.trans h2i⟩

/-- Line 88 of `getS`: `J = np.argpartition(-W, K, 1)[:, 0:K]` — for row
`i`, `K` column indices carrying the row's `K` largest entries. -/
def topK (W : Matrix (Fin n) (Fin n) α) (K : ℕ) (i : Fin n) : List (Fin n) :=
  ((List.finRange n).insertionSort (rankRel (W i))).take K

/-- Lines 92-93 of `getS`: `SNorm = np.sum(V, 1)` — the L1 norm of the kept
entries of row `i`. -/
def sNorm (W : Matrix (Fin n) (Fin n) α) (K : ℕ) (i : Fin n) : α :=
  ((topK W K i).map (W i)).sum

/-- Lines 86-98: `getS(W, K)`, the sparse local transition matrix: keep each
row's top-`K` entries, row-normalize them (`SNorm[SNorm == 0] = 1`), zero
elsewhere.  The selected column indices of a row are pairwise distinct, so
the COO assembly of line 97 places exactly these values. -/
def getS (W : Matrix (Fin n) (Fin n) α) (K : ℕ) : Matrix (Fin n) (Fin n) α :=
  fun i j =>
    if j ∈ topK W K i then W i j / (if sNorm W K i = 0 then 1 else sNorm W K i)
    else 0

/-- Lines 136-158, loop body for measurement `i` (state `Ps`, filters `Ss`):
zero the accumulator, add `Pts[k]` for every `k ≠ i`, divide by `N-1`
(float `0/0 → nan` when there is a single measurement; junk `0` here),
apply `S·X·Sᵀ` as `A = Ss[i].dot(X.T); Ss[i].dot(A.T)`, and add
`reg*np.eye` when `reg > 0`. -/
def diffuseStep (Ss : List (Matrix (Fin n) (Fin n) α)) (reg : α)
    (Ps : List (Matrix (Fin n) (Fin n) α)) (i : ℕ) : Matrix (Fin n) (Fin n) α :=
  let Si := Ss.getD i 0
  let X := (((List.range Ps.length).filter (fun k => k ≠ i)).map
    (fun k => Ps.getD k 0)).sum
  let Xd := ((Ps.length : α) - 1)⁻¹ • X
  let Y := Si * (Si * Xd.transpose).transpose
  if 0 < reg then Y + reg • (1 : Matrix (Fin n) (Fin n) α) else Y

/-- One sweep of the loop at lines 136-158 in its first iteration, where
`Pts` and `nextPts` are still two distinct Python lists: every `nextPts[i]`
is computed from the untouched snapshot `Ps` (synchronous update). -/
def syncSweep (Ss : List (Matrix (Fin n) (Fin n) α)) (reg : α)
    (Ps : List (Matrix (Fin n) (Fin n) α)) : List (Matrix (Fin n) (Fin n) α) :=
  (List.range Ps.length).map (diffuseStep Ss reg Ps)

/-- One sweep of the loop at lines 136-158 in every later iteration.  After
the first sweep, line 160 (`Pts = nextPts`) has made the names `Pts` and
`nextPts` alias one list object, so writing `nextPts[i]` rebinds the very
entry that `Pts[i]` denotes: measurement `i` reads the current-sweep states
of all `k < i` and the previous-sweep states of all `k > i` (in-place,
Gauss-Seidel-style update). -/
def gsSweep (Ss : List (Matrix (Fin n) (Fin n) α)) (reg : α)
    (Ps : List (Matrix (Fin n) (Fin n) α)) : List (Matrix (Fin n) (Fin n) α) :=
  (List.range Ps.length).foldl (fun Q i => Q.set i (diffuseStep Ss reg Q i)) Ps

/-- Lines 107-166: `doSimilarityFusionWs(Ws, K, NIters, reg)`.  `Ps` are the
full transition matrices (line 110), `Ss` the sparse ones (line 112);
`Pts` starts as entrywise copies of `Ps` (line 115).  The first loop
iteration updates synchronously (distinct `Pts`/`nextPts` buffers); after
`Pts = nextPts` (line 160) the two names alias one list, so the remaining
`NIters - 1` iterations update in place.  Returns the entrywise average of
the final states (lines 163-166).  The plotting block (lines 123-135) is
purely observational and is omitted. -/
def doSimilarityFusionWs (Ws : List (Matrix (Fin n) (Fin n) α)) (K : ℕ)
    (NIters : ℕ) (reg : α) : Matrix (Fin n) (Fin n) α :=
  let Ps := Ws.map getP
  let Ss := Ws.map (fun W => getS W K)
  let PtsFinal :=
    match NIters with
    | 0 => Ps
    | Nat.succ t => (gsSweep Ss reg)^[t] (syncSweep Ss reg Ps)
  ((Ws.length : α))⁻¹ • PtsFinal.sum

/-- Spec-modelled comparison point for the synchronous-update claim,
following the words of the spec (§4.4): every one of the `NIters` sweeps
computes all next-states from the same start-of-sweep snapshot and only
then replaces all states simultaneously. -/
def doSimilarityFusionWsSync (Ws : List (Matrix (Fin n) (Fin n) α)) (K : ℕ)
    (NIters : ℕ) (reg : α) : Matrix (Fin n) (Fin n) α :=
  let Ps := Ws.map getP
  let Ss := Ws.map (fun W => getS W K)
  ((Ws.length : α))⁻¹ • ((syncSweep Ss reg)^[NIters] Ps).sum

/-- Lines 169-172: `doSimilarityFusion(Scores, K, NIters, reg)` converts
each distance matrix to an affinity via `getW(D, K)` (`Mu` left at its
default `0.5`) and delegates to `doSimilarityFusionWs`. -/
noncomputable def doSimilarityFusion (Scores : List (Matrix (Fin n) (Fin n) ℚ))
    (K : ℕ) (NIters : ℕ) (reg : ℝ) : Matrix (Fin n) (Fin n) ℝ :=
  doSimilarityFusionWs (Scores.map (fun D => getW D K (1 / 2))) K NIters reg

/-! ### Concrete example matrices used by counterexamples and witnesses -/

/-- A 2×2 affinity matrix with positive entries. -/
def W1ex : Matrix (Fin 2) (Fin 2) ℚ := Matrix.of ![![1, 2], ![3, 4]]

/-- A second 2×2 affinity matrix with positive entries. -/
def W2ex : Matrix (Fin 2) (Fin 2) ℚ := Matrix.of ![![2, 1], ![1, 3]]

/-- A 3×3 symmetric distance matrix with zero diagonal. -/
def D3ex : Matrix (Fin 3) (Fin 3) ℚ := Matrix.of ![![0, 1, 2], ![1, 0, 1], ![2, 1, 0]]

/-! ### Store-level model for the frame claim

Numpy arrays are heap objects; to state that the caller's matrices are
never written, the relevant functions are re-traced on an explicit store:
a list of `n×n` arrays addressed by allocation index.  Allocations append;
in-place numpy writes (`np.fill_diagonal`, `*=`, `+=`, `/=`) update a cell.
Row vectors (`MeanDist`, `RowSum`, `SNorm`) and the scipy sparse matrices
are not `n×n` arrays and never alias a caller matrix, so they stay pure
values. -/

/-- A heap of `n×n` arrays; a reference is the allocation index. -/
abbrev Store (α : Type) (n : ℕ) := List (Matrix (Fin n) (Fin n) α)

/-- Dereference (out-of-range references read as the zero matrix). -/
def readSt (st : Store α n) (r : ℕ) : Matrix (Fin n) (Fin n) α :=
  st.getD r 0

/-- In-place write to an existing array. -/
def writeSt (st : Store α n) (r : ℕ) (A : Matrix (Fin n) (Fin n) α) :
    Store α n :=
  st.set r A

/-- Allocate a fresh array, returning its reference. -/
def allocSt (st : Store α n) (A : Matrix (Fin n) (Fin n) α) : Store α n × ℕ :=
  (st ++ [A], st.length)

/-- Allocate a list of fresh arrays in order. -/
def allocList (st : Store α n) :
    List (Matrix (Fin n) (Fin n) α) → Store α n × List ℕ
  | [] => (st, [])
  | A :: As =>
    let p := allocSt st A
    let q := allocList p.1 As
    (q.1, p.2 :: q.2)

/-- Store-level model of `getW` (lines 15-33).  Line 22 allocates the fresh
array `DSym = 0.5*(D + D.T)`; line 23 (`np.fill_diagonal(DSym, 0)`) writes
that fresh array in place; lines 25-32 derive `Eps` and the kernel-exponent
array from the written `DSym` as further fresh allocations (the row vector
`MeanDist` is kept as a pure value).  Returns the reference of the
kernel-exponent array; the affinity returned by the source is its
elementwise `np.exp`, a fresh array.  The caller's `D` is only read. -/
def getW_st (st : Store α n) (d : ℕ) (K : ℕ) (Mu : α) : Store α n × ℕ :=
  let D := readSt st d
  let p1 := allocSt st ((1 / 2 : α) • (D + D.transpose))
  let st1 := writeSt p1.1 p1.2 (fillDiagonal (readSt p1.1 p1.2) 0)
  let A := readSt st1 p1.2
  let p2 := allocSt st1 (fun i j =>
    ((neighbs0 A K i).sum / ((K : α) + 1) * ((K : α) + 1) / (K : α) +
        (neighbs0 A K j).sum / ((K : α) + 1) * ((K : α) + 1) / (K : α) +
        A i j) / 3)
  let Eps := readSt p2.1 p2.2
  let p3 := allocSt p2.1 (fun i j => -(A i j) ^ 2 / (2 * (Mu * Eps i j) ^ 2))
  (p3.1, p3.2)

/-- Store-level model of `doSimilarityFusionWs` (lines 107-166), loop body
for one measurement `i` in the sweeps *after* the first.  By then
`Pts = nextPts` (line 160) has made the two names alias one list `L`, so
`nextPts[i] *= 0` zeroes the array `L[i]` in place, the accumulation
`nextPts[i] += Pts[k]` reads `L[k]` (already updated this sweep for
`k < i`), `nextPts[i] /= float(N-1)` divides in place, the product
`Ss[i]·X·Ss[i]ᵀ` is a fresh array rebound into `L[i]`, and the
regularization is added to that fresh array in place. -/
def fuseStepAlias (Ss : List (Matrix (Fin n) (Fin n) α)) (reg : α) :
    Store α n × List ℕ → ℕ → Store α n × List ℕ
  | (st, L), i =>
    let ni := L.getD i 0
    let st1 := writeSt st ni ((0 : α) • readSt st ni)
    let st2 := (List.range L.length).foldl
      (fun s k =>
        if k = i then s
        else writeSt s ni (readSt s ni + readSt s (L.getD k 0))) st1
    let st3 := writeSt st2 ni (((L.length : α) - 1)⁻¹ • readSt st2 ni)
    let Si := Ss.getD i 0
    let p := allocSt st3 (Si * (Si * (readSt st3 ni).transpose).transpose)
    let st4 :=
      if 0 < reg then
        writeSt p.1 p.2 (readSt p.1 p.2 + reg • (1 : Matrix (Fin n) (Fin n) α))
      else p.1
    (st4, L.set i p.2)

/-- Loop body for one measurement `i` in the *first* sweep, where `Pts`
(the reference list `P`) and `nextPts` (the reference list being updated)
are still two distinct Python lists: all reads go to the untouched `P`. -/
def fuseStepSync (Ss : List (Matrix (Fin n) (Fin n) α)) (reg : α)
    (P : List ℕ) : Store α n × List ℕ → ℕ → Store α n × List ℕ
  | (st, Nx), i =>
    let ni := Nx.getD i 0
    let st1 := writeSt st ni ((0 : α) • readSt st ni)
    let st2 := (List.range P.length).foldl
      (fun s k =>
        if k = i then s
        else writeSt s ni (readSt s ni + readSt s (P.getD k 0))) st1
    let st3 := writeSt st2 ni (((P.length : α) - 1)⁻¹ • readSt st2 ni)
    let Si := Ss.getD i 0
    let p := allocSt st3 (Si * (Si * (readSt st3 ni).transpose).transpose)
    let st4 :=
      if 0 < reg then
        writeSt p.1 p.2 (readSt p.1 p.2 + reg • (1 : Matrix (Fin n) (Fin n) α))
      else p.1
    (st4, Nx.set i p.2)

/-- Store-level model of `doSimilarityFusionWs` (lines 107-166).  The full
and sparse transition matrices `Ps`, `Ss` are fresh derived values (lines
110, 112); `Pts` is a list of fresh copies of the `Ps` (line 115) and
`nextPts` a list of fresh zero arrays (line 116).  The first loop iteration
runs with the two distinct buffer lists; after `Pts = nextPts` (line 160)
the remaining `NIters - 1` iterations run on the single shared list.  The
returned `FusedScores` is a fresh array (lines 163-166). -/
def doSimilarityFusionWs_st (st : Store α n) (ws : List ℕ) (K : ℕ)
    (NIters : ℕ) (reg : α) : Store α n × Matrix (Fin n) (Fin n) α :=
  let Ws := ws.map (readSt st)
  let Ps := Ws.map getP
  let Ss := Ws.map (fun W => getS W K)
  let q1 := allocList st Ps
  let q2 := allocList q1.1 (Ps.map fun _ => (0 : Matrix (Fin n) (Fin n) α))
  match NIters with
  | 0 => (q2.1, ((ws.length : α))⁻¹ • (q1.2.map (readSt q2.1)).sum)
  | Nat.succ t =>
    let r1 := (List.range q1.2.length).foldl (fuseStepSync Ss reg q1.2)
      (q2.1, q2.2)
    let r2 := (fun p : Store α n × List ℕ =>
      (List.range p.2.length).foldl (fuseStepAlias Ss reg) p)^[t] r1
    (r2.1, ((ws.length : α))⁻¹ • (r2.2.map (readSt r2.1)).sum)

/-- Store-level model of `doSimilarityFusion` (lines 169-172): one
`getW_st` per distance matrix, then the fusion on the resulting affinities
(the elementwise `np.exp` of the allocated kernel-exponent arrays — fresh
float arrays, placed on a fresh float heap disjoint from the caller's
rational-valued distance arrays). -/
noncomputable def doSimilarityFusion_st (st : Store ℚ n) (ds : List ℕ)
    (K : ℕ) (NIters : ℕ) (reg : ℝ) :
    Store ℚ n × Store ℝ n × Matrix (Fin n) (Fin n) ℝ :=
  let q := ds.foldl (fun (p : Store ℚ n × List ℕ) d =>
    let g := getW_st p.1 d K (1 / 2)
    (g.1, p.2 ++ [g.2])) (st, [])
  let Ws : List (Matrix (Fin n) (Fin n) ℝ) :=
    q.2.map (fun r => fun i j => Real.exp ((readSt q.1 r i j : ℚ) : ℝ))
  let q2 := allocList ([] : Store ℝ n) Ws
  let out := doSimilarityFusionWs_st q2.1 q2.2 K NIters reg
  (q.1, out.1, out.2)

/-- A store evolved from `st0` by allocations and writes to fresh cells:
every pre-existing cell reads unchanged. -/
def preserves (st0 st : Store α n) : Prop :=
  st0.length ≤ st.length ∧ ∀ r < st0.length, readSt st r = readSt st0 r

/-- The measurement-list invariant of the diffusion sweeps: the original
cells are untouched, every state reference is fresh, and the reference list
keeps its length. -/
def sweepInv (st0 : Store α n) (m : ℕ) (p : Store α n × List ℕ) : Prop :=
  preserves st0 p.1 ∧ (∀ r ∈ p.2, st0.length ≤ r) ∧ p.2.length = m

/-- The entry of a sum of a list of matrices is the sum of the entries. -/
theorem listSum_matrix_apply (L : List (Matrix (Fin n) (Fin n) α)) (i j : Fin n) :
    L.sum i j = (L.map (fun A => A i j)).sum := by
  induction L with
  | nil => rfl
  | cons A L ih =>
    simp only [List.sum_cons, List.map_cons, Matrix.add_apply, ih]

/-! ### Claim theorems -/

/-- C4: with `NIters = 0` the diffusion loop body never runs and
`doSimilarityFusionWs` returns exactly the unweighted average
`(Σ_i getP(W_i)) / m` of the initial full transition matrices. -/
theorem claim_C4_zero_iters_average (Ws : List (Matrix (Fin n) (Fin n) ℚ))
    (K : ℕ) (reg : ℚ) (hm : 2 ≤ Ws.length) (i j : Fin n) :
    doSimilarityFusionWs Ws K 0 reg i j =
      (Ws.map (fun W => getP W i j)).sum / (Ws.length : ℚ) := by
  show ((Ws.length : ℚ))⁻¹ • ((Ws.map getP).sum) i j = _
  rw [listSum_matrix_apply, List.map_map, smul_eq_mul, div_eq_mul_inv, mul_comm]
  rfl

/-- Witness for C4 at a concrete pair of affinity matrices. -/
theorem claim_C4_zero_iters_average_witness :
    2 ≤ ([W1ex, W2ex] : List (Matrix (Fin 2) (Fin 2) ℚ)).length ∧
      doSimilarityFusionWs [W1ex, W2ex] 1 0 1 0 0 =
        (([W1ex, W2ex].map (fun W => getP W 0 0)).sum) /
          (([W1ex, W2ex] : List (Matrix (Fin 2) (Fin 2) ℚ)).length : ℚ) :=
  ⟨by norm_num, claim_C4_zero_iters_average [W1ex, W2ex] 1 1 (by norm_num) 0 0⟩

/-- C3 (code bug): with a single measurement (`m = 1`) the code raises
nothing — it has no `ConfigurationError` anywhere.  The loop body adds no
matrix to the accumulator (the only index `k = 0` is skipped) and divides
the zero accumulator by `m - 1 = 0` (float semantics: `0.0/0.0 = nan`
entries, silently; the field model renders that junk division as `0`), then
returns a matrix: with `K = 1, NIters = 1, reg = 1` the model returns the
identity `reg • I`, and in float semantics the call returns an all-NaN
matrix — in neither semantics is any error raised before or during the
computation. -/
theorem claim_C3_m1_no_error :
    doSimilarityFusionWs [W1ex] 1 1 1 = (1 : Matrix (Fin 2) (Fin 2) ℚ) := by
  ext i j
  fin_cases i <;> fin_cases j <;>
    norm_num [doSimilarityFusionWs, syncSweep, gsSweep, diffuseStep, getP, getS,
      topK, sNorm, rankRel, rowSumRepl, W1ex, List.insertionSort,
      List.orderedInsert, List.range_succ, Matrix.mul_apply, Fin.sum_univ_two,
      Matrix.transpose_apply, Matrix.smul_apply, Matrix.one_apply]

/-- C8 (counterexample): the same-set neighbor count is not obtained by
rounding to the nearest integer.  With `N = 3, M = 1, K = 1` the code
computes `k1 = int(1*3/4) = 0`, while rounding `3/4` to the nearest integer
gives `1`. -/
theorem claim_C8_counterexample :
    getWCSMSSMk1 3 1 1 ≠ round ((1 : ℚ) * 3 / (3 + 1)) := by
  have h1 : getWCSMSSMk1 3 1 1 = 0 := by
    rw [getWCSMSSMk1, Int.floor_eq_zero_iff]
    constructor <;> norm_num
  have h2 : round ((1 : ℚ) * 3 / (3 + 1)) = 1 := by
    rw [round_eq]
    norm_num
  rw [h1, h2]
  norm_num

/-- C8 (amended): `k1` is the *truncation* (floor, the quotient being
nonnegative) of `K·N/(N+M)`, i.e. exactly natural division, and
`k2 = K - k1`, so the two counts split `K`. -/
theorem claim_C8_truncated_split (N M K : ℕ) :
    getWCSMSSMk1 N M K = ((K * N / (M + N) : ℕ) : ℤ) ∧
      getWCSMSSMk1 N M K + getWCSMSSMk2 N M K = (K : ℤ) := by
  constructor
  · rw [getWCSMSSMk1]
    rw [show ((K : ℚ) * (N : ℚ)) = ((K * N : ℕ) : ℚ) by push_cast; ring]
    rw [show ((M : ℚ) + (N : ℚ)) = ((M + N : ℕ) : ℚ) by push_cast; ring]
    rw [← Int.natCast_floor_eq_floor (by positivity)]
    rw [Nat.floor_div_eq_div]
  · rw [getWCSMSSMk2]
    ring

/-- C5: with `diagRegularize = False`, every row of `getP(W)` for a
nonnegative `W` sums to 1, except that a row of `W` summing to exactly zero
(whose zero row sum was replaced by 1 before dividing) yields an all-zero
output row; the divisor is never zero, so no entry is ill-defined. -/
theorem claim_C5_getP_rows (W : Matrix (Fin n) (Fin n) ℚ)
    (hW : ∀ i j, 0 ≤ W i j) (i : Fin n) :
    ((∑ j, getP W i j) = 1 ∧ (∑ j, W i j) ≠ 0 ∧ rowSumRepl W i ≠ 0) ∨
      ((∑ j, W i j) = 0 ∧ (∀ j, getP W i j = 0) ∧ rowSumRepl W i ≠ 0) := by
  by_cases h : (∑ j, W i j) = 0
  · right
    refine ⟨h, fun j => ?_, ?_⟩
    · have hz : W i j = 0 :=
        (Finset.sum_eq_zero_iff_of_nonneg (fun k _ => hW i k)).1 h j
          (Finset.mem_univ j)
      rw [getP, hz, zero_div]
    · rw [rowSumRepl, if_pos h]
      norm_num
  · left
    refine ⟨?_, h, ?_⟩
    · have hrepl : rowSumRepl W i = ∑ j, W i j := by rw [rowSumRepl, if_neg h]
      calc (∑ j, getP W i j) = (∑ j, W i j) / rowSumRepl W i := by
            simp only [getP]
            exact (Finset.sum_div _ _ _).symm
        _ = 1 := by rw [hrepl, div_self h]
    · rw [rowSumRepl, if_neg h]
      exact h

/-- Witness for C5 at a concrete nonnegative matrix. -/
theorem claim_C5_getP_rows_witness :
    (∀ i j, 0 ≤ W1ex i j) ∧
      (((∑ j, getP W1ex 0 j) = 1 ∧ (∑ j, W1ex 0 j) ≠ 0 ∧ rowSumRepl W1ex 0 ≠ 0) ∨
        ((∑ j, W1ex 0 j) = 0 ∧ (∀ j, getP W1ex 0 j = 0) ∧ rowSumRepl W1ex 0 ≠ 0)) := by
  have hW : ∀ i j, 0 ≤ W1ex i j := by
    intro i j
    fin_cases i <;> fin_cases j <;> norm_num [W1ex]
  exact ⟨hW, claim_C5_getP_rows W1ex hW 0⟩

/-- The symmetrized distance matrix has zero diagonal (line 23). -/
theorem DSym_diag (D : Matrix (Fin n) (Fin n) α) (i : Fin n) : DSym D i i = 0 := by
  simp [DSym, fillDiagonal]

/-- The symmetrized distance matrix is symmetric (line 22). -/
theorem DSym_symm (D : Matrix (Fin n) (Fin n) α) (i j : Fin n) :
    DSym D i j = DSym D j i := by
  by_cases h : i = j
  · rw [h]
  · simp only [DSym, fillDiagonal, if_neg h, if_neg (Ne.symm h)]
    simp only [Matrix.smul_apply, Matrix.add_apply, Matrix.transpose_apply,
      smul_eq_mul]
    ring

/-- The local bandwidth matrix is symmetric (lines 30-31). -/
theorem eps_symm (D : Matrix (Fin n) (Fin n) α) (K : ℕ) (i j : Fin n) :
    eps D K i j = eps D K j i := by
  simp only [eps, DSym_symm D i j]
  ring

/-- The kernel exponent is symmetric. -/
theorem getWExpArg_symm (D : Matrix (Fin n) (Fin n) α) (K : ℕ) (Mu : α)
    (i j : Fin n) : getWExpArg D K Mu i j = getWExpArg D K Mu j i := by
  simp only [getWExpArg, DSym_symm D i j, eps_symm D K i j]

/-- The kernel exponent is nonpositive: the numerator is `-(DSym i j)²` and
the denominator is a square (and division by a zero denominator is the junk
value `0`). -/
theorem getWExpArg_nonpos (D : Matrix (Fin n) (Fin n) α) (K : ℕ) (Mu : α)
    (i j : Fin n) : getWExpArg D K Mu i j ≤ 0 := by
  rw [getWExpArg]
  apply div_nonpos_of_nonpos_of_nonneg
  · simp [sq_nonneg]
  · positivity

/-- On the diagonal the kernel exponent is exactly zero, because the
symmetrized distance was zeroed there. -/
theorem getWExpArg_diag (D : Matrix (Fin n) (Fin n) α) (K : ℕ) (Mu : α)
    (i : Fin n) : getWExpArg D K Mu i i = 0 := by
  rw [getWExpArg, DSym_diag]
  norm_num

/-- Every diagonal entry of the affinity matrix is `exp 0 = 1`. -/
theorem getW_diag (D : Matrix (Fin n) (Fin n) ℚ) (K : ℕ) (Mu : ℚ) (i : Fin n) :
    getW D K Mu i i = 1 := by
  rw [getW, getWExpArg_diag]
  norm_num

/-- C2 (counterexample): the affinity matrix does *not* have zero diagonal.
At the valid configuration `D = D3ex` (a 3×3 distance matrix), `K = 1`
(so `1 ≤ K < N-1`), `Mu = 1/2 > 0`, the diagonal entry `W[0,0]` is
`exp(0) = 1 ≠ 0`. -/
theorem claim_C2_counterexample : getW D3ex 1 (1 / 2) 0 0 ≠ 0 := by
  rw [getW]
  exact Real.exp_ne_zero _

/-- C2 (amended): for every distance matrix `D` and every `K` with
`1 ≤ K < N-1` and `Mu > 0`, `getW(D, K, Mu)` is symmetric with every entry
in `(0, 1]`, and its diagonal entries equal `1` (not `0`: the symmetrized
distance on the diagonal is zeroed, so the kernel evaluates to `exp 0`). -/
theorem claim_C2_getW_symm_range_diag (D : Matrix (Fin n) (Fin n) ℚ) (K : ℕ)
    (Mu : ℚ) (hK1 : 1 ≤ K) (hK2 : K < n - 1) (hMu : 0 < Mu) :
    (∀ i j, getW D K Mu i j = getW D K Mu j i) ∧
      (∀ i j, 0 < getW D K Mu i j ∧ getW D K Mu i j ≤ 1) ∧
      (∀ i, getW D K Mu i i = 1) := by
  refine ⟨fun i j => ?_, fun i j => ⟨?_, ?_⟩, fun i => getW_diag D K Mu i⟩
  · rw [getW, getW, getWExpArg_symm]
  · rw [getW]
    exact Real.exp_pos _
  · rw [getW, Real.exp_le_one_iff]
    have h := getWExpArg_nonpos D K Mu i j
    exact_mod_cast h

/-- Witness for C2 (amended) at a concrete valid configuration. -/
theorem claim_C2_getW_symm_range_diag_witness :
    (1 ≤ 1 ∧ 1 < 3 - 1 ∧ (0 : ℚ) < 1 / 2) ∧
      ((∀ i j, getW D3ex 1 (1 / 2) i j = getW D3ex 1 (1 / 2) j i) ∧
        (∀ i j, 0 < getW D3ex 1 (1 / 2) i j ∧ getW D3ex 1 (1 / 2) i j ≤ 1) ∧
        (∀ i, getW D3ex 1 (1 / 2) i i = 1)) :=
  ⟨⟨le_refl 1, by norm_num, by norm_num⟩,
    claim_C2_getW_symm_range_diag D3ex 1 (1 / 2) (le_refl 1) (by norm_num)
      (by norm_num)⟩

/-- C10: for a nonnegative distance matrix, valid `K` and positive `Mu`,
every diagonal entry of `getW(D, K, Mu)` whose local bandwidth
`Eps[i,i]` is nonzero equals exactly `1` (the zeroed diagonal of the
symmetrized distance makes the Gaussian kernel evaluate to `exp 0 = 1`),
the maximal affinity value — not `0`. -/
theorem claim_C10_diag_is_one (D : Matrix (Fin n) (Fin n) ℚ) (K : ℕ) (Mu : ℚ)
    (hD : ∀ i j, 0 ≤ D i j) (hK1 : 1 ≤ K) (hK2 : K < n - 1) (hMu : 0 < Mu)
    (i : Fin n) (hEps : eps D K i i ≠ 0) : getW D K Mu i i = 1 :=
  getW_diag D K Mu i

/-- Witness for C10 at a concrete configuration, where the bandwidth
`Eps[0,0]` evaluates to `2/3 ≠ 0`. -/
theorem claim_C10_diag_is_one_witness :
    ((∀ i j, (0 : ℚ) ≤ D3ex i j) ∧ eps D3ex 1 0 0 ≠ 0) ∧
      getW D3ex 1 (1 / 2) 0 0 = 1 := by
  have hD : ∀ i j, (0 : ℚ) ≤ D3ex i j := by
    intro i j
    fin_cases i <;> fin_cases j <;> norm_num [D3ex]
  have hEps : eps D3ex 1 (0 : Fin 3) (0 : Fin 3) ≠ 0 := by
    norm_num [eps, meanDist, neighbs, neighbs0, DSym, fillDiagonal, D3ex,
      List.insertionSort, List.orderedInsert, List.ofFn_succ,
      Matrix.smul_apply, Matrix.add_apply, Matrix.transpose_apply,
      Matrix.of_apply, Matrix.cons_val', Matrix.cons_val_zero,
      Matrix.cons_val_one, Matrix.head_cons, Matrix.head_fin_const,
      Matrix.empty_val', Matrix.cons_val_fin_one, Matrix.vecHead,
      Matrix.vecTail, Function.comp, Fin.ext_iff]
  exact ⟨⟨hD, hEps⟩,
    claim_C10_diag_is_one D3ex 1 (1 / 2) hD (le_refl 1) (by norm_num)
      (by norm_num) 0 hEps⟩

/-- The selected top-`K` column indices of a row are pairwise distinct. -/
theorem topK_nodup (W : Matrix (Fin n) (Fin n) α) (K : ℕ) (i : Fin n) :
    (topK W K i).Nodup :=
  ((List.perm_insertionSort (rankRel (W i)) (List.finRange n)).nodup_iff.2
    (List.nodup_finRange n)).sublist (List.take_sublist _ _)

/-- At most `K` indices are selected per row. -/
theorem topK_length_le (W : Matrix (Fin n) (Fin n) α) (K : ℕ) (i : Fin n) :
    (topK W K i).length ≤ K := by
  rw [topK, List.length_take]
  exact min_le_left _ _

/-- The partition property of the selection: every selected entry of row `i`
is at least as large as every non-selected entry. -/
theorem topK_partition (W : Matrix (Fin n) (Fin n) α) (K : ℕ) (i : Fin n)
    {a j : Fin n} (ha : a ∈ topK W K i) (hj : j ∉ topK W K i) :
    W i j ≤ W i a := by
  set L := (List.finRange n).insertionSort (rankRel (W i)) with hL
  have hsorted : L.Pairwise (rankRel (W i)) :=
    List.sorted_insertionSort (rankRel (W i)) (List.finRange n)
  have hmem : j ∈ L := by
    rw [hL, List.mem_insertionSort]
    exact List.mem_finRange j
  have hsplit : L.take K ++ L.drop K = L := List.take_append_drop K L
  have hpair : ∀ x ∈ L.take K, ∀ y ∈ L.drop K, rankRel (W i) x y := by
    have := hsplit ▸ hsorted
    exact (List.pairwise_append.1 this).2.2
  have hjdrop : j ∈ L.drop K := by
    rcases (List.mem_append.1 (hsplit ▸ hmem)) with h | h
    · exact absurd h hj
    · exact h
  rcases hpair a ha j hjdrop with h | ⟨h, _⟩
  · exact le_of_lt h
  · exact le_of_eq h.symm

/-- The row sum of `getS` equals the kept mass divided by the safe norm. -/
theorem sum_getS_row (W : Matrix (Fin n) (Fin n) α) (K : ℕ) (i : Fin n) :
    (∑ j, getS W K i j) =
      sNorm W K i / (if sNorm W K i = 0 then 1 else sNorm W K i) := by
  have hstep : (∑ j, getS W K i j) =
      ∑ j ∈ (topK W K i).toFinset,
        W i j / (if sNorm W K i = 0 then 1 else sNorm W K i) := by
    simp only [getS]
    rw [← Finset.univ_inter (topK W K i).toFinset, ← Finset.sum_ite_mem]
    congr 1
    funext j
    simp only [List.mem_toFinset]
  rw [hstep, List.sum_toFinset _ (topK_nodup W K i)]
  rw [show ∀ L : List (Fin n), (L.map fun j =>
      W i j / (if sNorm W K i = 0 then 1 else sNorm W K i)).sum =
      (L.map (W i)).sum / (if sNorm W K i = 0 then 1 else sNorm W K i) by
    intro L
    simp only [div_eq_mul_inv]
    exact List.sum_map_mul_right _ _ _]
  rfl

/-- C6 (counterexample): the row sums of the sparse local transition matrix
are not always 1.  The all-zero 2×2 matrix is nonnegative and `K = 1`
satisfies `1 ≤ K < N`, yet row 0 of `getS` sums to `0`, not `1` (the zero
kept mass is divided by the substituted norm 1). -/
theorem claim_C6_counterexample :
    (∀ i j, (0 : ℚ) ≤ (0 : Matrix (Fin 2) (Fin 2) ℚ) i j) ∧
      (∑ j, getS (0 : Matrix (Fin 2) (Fin 2) ℚ) 1 (0 : Fin 2) j) ≠ 1 := by
  constructor
  · intro i j
    simp
  · have hfr : List.finRange 2 = [0, 1] := by decide
    norm_num [getS, topK, sNorm, rankRel, hfr, List.insertionSort,
      List.orderedInsert, Fin.sum_univ_two]

/-- C6 (amended): for a nonnegative matrix `W` and `1 ≤ K < N`, every row of
`getS(W, K)` has at most `K` nonzero entries, and sums to 1 *unless* the
kept top-`K` mass is zero — which for nonnegative `W` forces the whole row
of `W` to be zero — in which case the output row is all-zero. -/
theorem claim_C6_getS_rows (W : Matrix (Fin n) (Fin n) ℚ) (K : ℕ)
    (hW : ∀ i j, 0 ≤ W i j) (hK1 : 1 ≤ K) (hKn : K < n) (i : Fin n) :
    (Finset.univ.filter fun j => getS W K i j ≠ 0).card ≤ K ∧
      ((∑ j, getS W K i j) = 1 ∨
        ((∀ j, W i j = 0) ∧ ∀ j, getS W K i j = 0)) := by
  constructor
  · have hsub : (Finset.univ.filter fun j => getS W K i j ≠ 0) ⊆
        (topK W K i).toFinset := by
      intro j hjmem
      rw [Finset.mem_filter] at hjmem
      rw [List.mem_toFinset]
      by_contra hnot
      exact hjmem.2 (by rw [getS, if_neg hnot])
    calc (Finset.univ.filter fun j => getS W K i j ≠ 0).card
        ≤ (topK W K i).toFinset.card := Finset.card_le_card hsub
      _ ≤ (topK W K i).length := List.toFinset_card_le _
      _ ≤ K := topK_length_le W K i
  · by_cases hz : sNorm W K i = 0
    · right
      have hkept : ∀ j ∈ topK W K i, W i j = 0 := by
        have hq : ∑ j ∈ (topK W K i).toFinset, W i j = 0 := by
          rw [List.sum_toFinset _ (topK_nodup W K i)]
          exact hz
        intro j hj
        exact (Finset.sum_eq_zero_iff_of_nonneg
          (fun k _ => hW i k)).1 hq j (List.mem_toFinset.2 hj)
      have hrow : ∀ j, W i j = 0 := by
        intro j
        by_cases hjin : j ∈ topK W K i
        · exact hkept j hjin
        · have hne : topK W K i ≠ [] := by
            have hlen : (topK W K i).length = min K n := by
              rw [topK, List.length_take, List.length_insertionSort,
                List.length_finRange]
            intro habs
            rw [habs] at hlen
            simp only [List.length_nil] at hlen
            have : 0 < min K n := lt_min (lt_of_lt_of_le Nat.zero_lt_one hK1)
              (lt_of_le_of_lt (Nat.zero_le K) hKn)
            omega
          obtain ⟨a, ha⟩ := List.exists_mem_of_ne_nil _ hne
          have hle : W i j ≤ W i a := topK_partition W K i ha hjin
          have ha0 : W i a = 0 := hkept a ha
          exact le_antisymm (ha0 ▸ hle) (hW i j)
      refine ⟨hrow, fun j => ?_⟩
      rw [getS]
      by_cases hjin : j ∈ topK W K i
      · rw [if_pos hjin, hrow j, zero_div]
      · rw [if_neg hjin]
    · left
      rw [sum_getS_row, if_neg hz, div_self hz]

/-- Witness for C6 (amended) at a concrete positive matrix. -/
theorem claim_C6_getS_rows_witness :
    ((∀ i j, (0 : ℚ) ≤ W1ex i j) ∧ 1 ≤ 1 ∧ 1 < 2) ∧
      ((Finset.univ.filter fun j => getS W1ex 1 0 j ≠ 0).card ≤ 1 ∧
        ((∑ j, getS W1ex 1 0 j) = 1 ∨
          ((∀ j, W1ex 0 j = 0) ∧ ∀ j, getS W1ex 1 0 j = 0))) := by
  have hW : ∀ i j, (0 : ℚ) ≤ W1ex i j := by
    intro i j
    fin_cases i <;> fin_cases j <;> norm_num [W1ex]
  exact ⟨⟨hW, le_refl 1, Nat.one_lt_two⟩,
    claim_C6_getS_rows W1ex 1 hW (le_refl 1) Nat.one_lt_two 0⟩

/-- C1 (code bug): the diffusion sweeps are *not* all synchronous.  After
the first sweep, `Pts = nextPts` (line 160) makes the two Python names
alias one list, so from the second sweep on measurement `i` reads the
current-sweep states of measurements `k < i` instead of the start-of-sweep
snapshot.  Concretely, with two 2×2 affinity matrices, `K = 1`,
`NIters = 2`, `reg = 1`, the code's result differs from the result of the
fully synchronous procedure described by the spec (entry `(0,0)` is `43/14`
for the code and `149/56` for the synchronous semantics). -/
theorem claim_C1_update_not_synchronous :
    doSimilarityFusionWs [W1ex, W2ex] 1 2 1 ≠
      doSimilarityFusionWsSync [W1ex, W2ex] 1 2 1 := by
  intro h
  have h00 := congrFun (congrFun h 0) 0
  norm_num [doSimilarityFusionWs, doSimilarityFusionWsSync, gsSweep, syncSweep,
    diffuseStep, getP, getS, topK, sNorm, rankRel, rowSumRepl, W1ex, W2ex,
    List.insertionSort, List.orderedInsert, List.range_succ, Matrix.mul_apply,
    Fin.sum_univ_two, Matrix.transpose_apply, Matrix.smul_apply,
    Matrix.one_apply] at h00

/-- C7 (code bug): the fused output is *not* invariant under permuting the
input list of affinity matrices.  Because the sweeps after the first update
in place (see the `Pts = nextPts` aliasing of line 160), the measurement
processed later in a sweep sees the earlier one's current-sweep state, so
the list order matters.  Concretely, with the same two 2×2 affinity
matrices, `K = 1`, `NIters = 2`, `reg = 1`, swapping the two inputs changes
entry `(0,0)` of the result from `43/14` to `13/4`. -/
theorem claim_C7_not_permutation_invariant :
    doSimilarityFusionWs [W1ex, W2ex] 1 2 1 ≠
      doSimilarityFusionWs [W2ex, W1ex] 1 2 1 := by
  intro h
  have h00 := congrFun (congrFun h 0) 0
  norm_num [doSimilarityFusionWs, gsSweep, syncSweep, diffuseStep, getP, getS,
    topK, sNorm, rankRel, rowSumRepl, W1ex, W2ex, List.insertionSort,
    List.orderedInsert, List.range_succ, Matrix.mul_apply, Fin.sum_univ_two,
    Matrix.transpose_apply, Matrix.smul_apply, Matrix.one_apply] at h00


theorem preserves_refl (st : Store α n) : preserves st st :=
  ⟨le_refl _, fun _ _ => rfl⟩

theorem preserves_trans {st0 st1 st2 : Store α n} (h1 : preserves st0 st1)
    (h2 : preserves st1 st2) : preserves st0 st2 :=
  ⟨le_trans h1.1 h2.1, fun r hr =>
    (h2.2 r (lt_of_lt_of_le hr h1.1)).trans (h1.2 r hr)⟩

/-- Reading past a write to a different cell. -/
theorem readSt_write_ne (st : Store α n) {r q : ℕ} (A : Matrix (Fin n) (Fin n) α)
    (h : q ≠ r) : readSt (writeSt st r A) q = readSt st q := by
  simp only [readSt, writeSt, List.getD_eq_getElem?_getD]
  rw [List.getElem?_set_ne (fun hrq => h hrq.symm)]

/-- Writing to a cell at or beyond the original frontier preserves the
original cells. -/
theorem preserves_write {st0 st : Store α n} (h : preserves st0 st) {r : ℕ}
    (hr : st0.length ≤ r) (A : Matrix (Fin n) (Fin n) α) :
    preserves st0 (writeSt st r A) := by
  refine ⟨?_, fun q hq => ?_⟩
  · rw [writeSt, List.length_set]
    exact h.1
  · rw [readSt_write_ne st A (Nat.ne_of_lt (lt_of_lt_of_le hq hr))]
    exact h.2 q hq

/-- Allocation preserves the original cells. -/
theorem preserves_alloc {st0 st : Store α n} (h : preserves st0 st)
    (A : Matrix (Fin n) (Fin n) α) : preserves st0 (allocSt st A).1 := by
  refine ⟨?_, fun q hq => ?_⟩
  · rw [allocSt, List.length_append]
    exact le_trans h.1 (Nat.le_add_right _ _)
  · have hlt : q < st.length := lt_of_lt_of_le hq h.1
    have hread : readSt (allocSt st A).1 q = readSt st q := by
      simp only [allocSt, readSt, List.getD_eq_getElem?_getD]
      rw [List.getElem?_append_left hlt]
    rw [hread]
    exact h.2 q hq

/-- An invariant carried through a list fold. -/
theorem foldl_inv {σ β : Type*} (Inv : σ → Prop) (f : σ → β → σ)
    (l : List β) (hf : ∀ s b, b ∈ l → Inv s → Inv (f s b)) :
    ∀ s, Inv s → Inv (l.foldl f s) := by
  induction l with
  | nil => exact fun s h => h
  | cons b l ih =>
    intro s h
    exact ih (fun s c hc hs => hf s c (List.mem_cons_of_mem b hc) hs) _
      (hf s b (List.mem_cons_self b l) h)

/-- An invariant carried through function iteration. -/
theorem iterate_inv {σ : Type*} (Inv : σ → Prop) (f : σ → σ)
    (hf : ∀ s, Inv s → Inv (f s)) : ∀ (t : ℕ) (s), Inv s → Inv (f^[t] s) := by
  intro t
  induction t with
  | zero => exact fun s h => h
  | succ t ih =>
    intro s h
    rw [Function.iterate_succ_apply]
    exact ih _ (hf s h)

/-- `allocList` preserves the current store and returns only fresh
references. -/
theorem allocList_spec (L : List (Matrix (Fin n) (Fin n) α)) :
    ∀ st : Store α n, preserves st (allocList st L).1 ∧
      (∀ r ∈ (allocList st L).2, st.length ≤ r) ∧
      (allocList st L).2.length = L.length := by
  induction L with
  | nil => exact fun st => ⟨preserves_refl st, fun r hr => absurd hr
      (List.not_mem_nil r), rfl⟩
  | cons A As ih =>
    intro st
    have hallo : preserves st (allocSt st A).1 := preserves_alloc
      (preserves_refl st) A
    obtain ⟨hpres, hfresh, hlen⟩ := ih (allocSt st A).1
    have hstep : st.length ≤ (allocSt st A).1.length := by
      rw [allocSt]
      simp only [List.length_append]
      omega
    refine ⟨preserves_trans hallo hpres, fun r hr => ?_, ?_⟩
    · rcases List.mem_cons.1 hr with h | h
      · rw [h]
        exact le_refl _
      · exact le_trans hstep (hfresh r h)
    · show ((allocList (allocSt st A).1 As).2.length + 1) = As.length + 1
      rw [hlen]


/-- The in-place (aliased) loop body keeps the sweep invariant. -/
theorem fuseStepAlias_inv (Ss : List (Matrix (Fin n) (Fin n) α)) (reg : α)
    {st0 : Store α n} {m : ℕ} (p : Store α n × List ℕ) (i : ℕ) (hi : i < m)
    (h : sweepInv st0 m p) : sweepInv st0 m (fuseStepAlias Ss reg p i) := by
  obtain ⟨st, L⟩ := p
  obtain ⟨hpres, hfresh, hlen⟩ := h
  have hiL : i < L.length := hlen ▸ hi
  have hniL : L.getD i 0 ∈ L := by
    rw [List.getD_eq_getElem?_getD, List.getElem?_eq_getElem hiL]
    exact List.getElem_mem hiL
  have hni : st0.length ≤ L.getD i 0 := hfresh _ hniL
  set ni := L.getD i 0 with hnidef
  set stA := writeSt st ni ((0 : α) • readSt st ni) with hstAdef
  set stB := (List.range L.length).foldl
    (fun s k =>
      if k = i then s
      else writeSt s ni (readSt s ni + readSt s (L.getD k 0))) stA with hstBdef
  set stC := writeSt stB ni (((L.length : α) - 1)⁻¹ • readSt stB ni) with hstCdef
  set pD := allocSt stC ((Ss.getD i 0) *
    ((Ss.getD i 0) * (readSt stC ni).transpose).transpose) with hpDdef
  have hA : preserves st0 stA := preserves_write hpres hni _
  have hB : preserves st0 stB := by
    rw [hstBdef]
    refine foldl_inv (preserves st0) _ _ (fun s k _ hs => ?_) _ hA
    by_cases hk : k = i
    · rw [if_pos hk]
      exact hs
    · rw [if_neg hk]
      exact preserves_write hs hni _
  have hC : preserves st0 stC := preserves_write hB hni _
  have hD : preserves st0 pD.1 := preserves_alloc hC _
  have hD2 : st0.length ≤ pD.2 := by
    rw [hpDdef]
    exact hC.1
  show sweepInv st0 m
    ((if 0 < reg then
        writeSt pD.1 pD.2 (readSt pD.1 pD.2 + reg • (1 : Matrix (Fin n) (Fin n) α))
      else pD.1),
     L.set i pD.2)
  refine ⟨?_, fun r hr => ?_, ?_⟩
  · by_cases hreg : 0 < reg
    · rw [if_pos hreg]
      exact preserves_write hD hD2 _
    · rw [if_neg hreg]
      exact hD
  · rcases List.mem_or_eq_of_mem_set hr with hrL | hrnew
    · exact hfresh r hrL
    · rw [hrnew]
      exact hD2
  · show (L.set i pD.2).length = m
    rw [List.length_set]
    exact hlen

/-- The first-sweep (two-buffer) loop body keeps the sweep invariant on the
`nextPts` buffer list. -/
theorem fuseStepSync_inv (Ss : List (Matrix (Fin n) (Fin n) α)) (reg : α)
    (P : List ℕ) {st0 : Store α n} {m : ℕ} (p : Store α n × List ℕ) (i : ℕ)
    (hi : i < m) (h : sweepInv st0 m p) :
    sweepInv st0 m (fuseStepSync Ss reg P p i) := by
  obtain ⟨st, Nx⟩ := p
  obtain ⟨hpres, hfresh, hlen⟩ := h
  have hiL : i < Nx.length := hlen ▸ hi
  have hniL : Nx.getD i 0 ∈ Nx := by
    rw [List.getD_eq_getElem?_getD, List.getElem?_eq_getElem hiL]
    exact List.getElem_mem hiL
  have hni : st0.length ≤ Nx.getD i 0 := hfresh _ hniL
  set ni := Nx.getD i 0 with hnidef
  set stA := writeSt st ni ((0 : α) • readSt st ni) with hstAdef
  set stB := (List.range P.length).foldl
    (fun s k =>
      if k = i then s
      else writeSt s ni (readSt s ni + readSt s (P.getD k 0))) stA with hstBdef
  set stC := writeSt stB ni (((P.length : α) - 1)⁻¹ • readSt stB ni) with hstCdef
  set pD := allocSt stC ((Ss.getD i 0) *
    ((Ss.getD i 0) * (readSt stC ni).transpose).transpose) with hpDdef
  have hA : preserves st0 stA := preserves_write hpres hni _
  have hB : preserves st0 stB := by
    rw [hstBdef]
    refine foldl_inv (preserves st0) _ _ (fun s k _ hs => ?_) _ hA
    by_cases hk : k = i
    · rw [if_pos hk]
      exact hs
    · rw [if_neg hk]
      exact preserves_write hs hni _
  have hC : preserves st0 stC := preserves_write hB hni _
  have hD : preserves st0 pD.1 := preserves_alloc hC _
  have hD2 : st0.length ≤ pD.2 := by
    rw [hpDdef]
    exact hC.1
  show sweepInv st0 m
    ((if 0 < reg then
        writeSt pD.1 pD.2 (readSt pD.1 pD.2 + reg • (1 : Matrix (Fin n) (Fin n) α))
      else pD.1),
     Nx.set i pD.2)
  refine ⟨?_, fun r hr => ?_, ?_⟩
  · by_cases hreg : 0 < reg
    · rw [if_pos hreg]
      exact preserves_write hD hD2 _
    · rw [if_neg hreg]
      exact hD
  · rcases List.mem_or_eq_of_mem_set hr with hrL | hrnew
    · exact hfresh r hrL
    · rw [hrnew]
      exact hD2
  · show (Nx.set i pD.2).length = m
    rw [List.length_set]
    exact hlen

/-- The store-level fusion only allocates and writes fresh cells. -/
theorem doSimilarityFusionWs_st_preserves (st : Store α n) (ws : List ℕ)
    (K NIters : ℕ) (reg : α) :
    preserves st (doSimilarityFusionWs_st st ws K NIters reg).1 := by
  set Ws := ws.map (readSt st) with hWsdef
  set Ps := Ws.map getP with hPsdef
  set Ss := Ws.map (fun W => getS W K) with hSsdef
  set q1 := allocList st Ps with hq1def
  set q2 := allocList q1.1 (Ps.map fun _ => (0 : Matrix (Fin n) (Fin n) α))
    with hq2def
  have hq1p : preserves st q1.1 := (allocList_spec Ps st).1
  have hq1f : ∀ r ∈ q1.2, st.length ≤ r := (allocList_spec Ps st).2.1
  have hq1l : q1.2.length = Ps.length := (allocList_spec Ps st).2.2
  have hq2p : preserves q1.1 q2.1 :=
    (allocList_spec (Ps.map fun _ => (0 : Matrix (Fin n) (Fin n) α)) q1.1).1
  have hq2f : ∀ r ∈ q2.2, q1.1.length ≤ r :=
    (allocList_spec (Ps.map fun _ => (0 : Matrix (Fin n) (Fin n) α)) q1.1).2.1
  have hq2l : q2.2.length =
      (Ps.map fun _ => (0 : Matrix (Fin n) (Fin n) α)).length :=
    (allocList_spec (Ps.map fun _ => (0 : Matrix (Fin n) (Fin n) α)) q1.1).2.2
  cases NIters with
  | zero =>
    show preserves st q2.1
    exact preserves_trans hq1p hq2p
  | succ t =>
    set m := q1.2.length with hmdef
    have hinv1 : sweepInv st m (q2.1, q2.2) := by
      refine ⟨preserves_trans hq1p hq2p, fun r hr => le_trans hq1p.1 (hq2f r hr), ?_⟩
      show q2.2.length = m
      rw [hq2l, List.length_map]
      exact hq1l.symm
    have hsync : sweepInv st m
        ((List.range m).foldl (fuseStepSync Ss reg q1.2) (q2.1, q2.2)) := by
      refine foldl_inv (sweepInv st m) _ _ (fun p i hi hp => ?_) _ hinv1
      exact fuseStepSync_inv Ss reg q1.2 p i (List.mem_range.1 hi) hp
    have halias : sweepInv st m ((fun p : Store α n × List ℕ =>
        (List.range p.2.length).foldl (fuseStepAlias Ss reg) p)^[t]
          ((List.range m).foldl (fuseStepSync Ss reg q1.2) (q2.1, q2.2))) := by
      refine iterate_inv (sweepInv st m) _ (fun p hp => ?_) t _ hsync
      refine foldl_inv (sweepInv st m) _ _ (fun q i hi hq => ?_) _ hp
      refine fuseStepAlias_inv Ss reg q i ?_ hq
      have him : i < p.2.length := List.mem_range.1 hi
      rw [hp.2.2] at him
      exact him
    exact halias.1

/-- `getW_st` only reads the caller's distance array. -/
theorem getW_st_preserves (st : Store α n) (d K : ℕ) (Mu : α) :
    preserves st (getW_st st d K Mu).1 := by
  set p1 := allocSt st ((1 / 2 : α) • (readSt st d + (readSt st d).transpose))
    with hp1def
  set st1 := writeSt p1.1 p1.2 (fillDiagonal (readSt p1.1 p1.2) 0) with hst1def
  set A := readSt st1 p1.2 with hAdef
  set p2 := allocSt st1 (fun i j =>
    ((neighbs0 A K i).sum / ((K : α) + 1) * ((K : α) + 1) / (K : α) +
        (neighbs0 A K j).sum / ((K : α) + 1) * ((K : α) + 1) / (K : α) +
        A i j) / 3) with hp2def
  set Eps := readSt p2.1 p2.2 with hEdef
  set p3 := allocSt p2.1 (fun i j => -(A i j) ^ 2 / (2 * (Mu * Eps i j) ^ 2))
    with hp3def
  have h1 : preserves st p1.1 := preserves_alloc (preserves_refl st) _
  have h1b : st.length ≤ p1.2 := by
    rw [hp1def]
    exact le_refl _
  have h2 : preserves st st1 := preserves_write h1 h1b _
  have h3 : preserves st p2.1 := preserves_alloc h2 _
  have h4 : preserves st p3.1 := preserves_alloc h3 _
  exact h4

/-- The orchestrator's fold over `getW_st` preserves the caller's store. -/
theorem doSimilarityFusion_st_preserves (st : Store ℚ n) (ds : List ℕ)
    (K NIters : ℕ) (reg : ℝ) :
    preserves st (doSimilarityFusion_st st ds K NIters reg).1 :=
  foldl_inv (fun p : Store ℚ n × List ℕ => preserves st p.1)
    (fun p d =>
      ((getW_st p.1 d K (1 / 2)).1, p.2 ++ [(getW_st p.1 d K (1 / 2)).2]))
    ds (fun p d _ hp => preserves_trans hp (getW_st_preserves p.1 d K (1 / 2)))
    (st, []) (preserves_refl st)

/-- C9: none of `getW`, `doSimilarityFusionWs`, `doSimilarityFusion`
writes a caller-supplied matrix: every pre-existing array of the store
reads back unchanged after the call — in particular each input distance or
affinity array; all in-place numpy writes of the three functions land on
freshly allocated arrays. -/
theorem claim_C9_no_caller_mutation (n : ℕ) :
    (∀ (st : Store ℚ n) (d K : ℕ) (Mu : ℚ), d < st.length →
      readSt (getW_st st d K Mu).1 d = readSt st d) ∧
    (∀ (st : Store ℚ n) (ws : List ℕ) (K NIters : ℕ) (reg : ℚ),
      ∀ w ∈ ws, w < st.length →
        readSt (doSimilarityFusionWs_st st ws K NIters reg).1 w = readSt st w) ∧
    (∀ (st : Store ℚ n) (ds : List ℕ) (K NIters : ℕ) (reg : ℝ),
      ∀ d ∈ ds, d < st.length →
        readSt (doSimilarityFusion_st st ds K NIters reg).1 d = readSt st d) :=
  ⟨fun st d K Mu hd => (getW_st_preserves st d K Mu).2 d hd,
   fun st ws K NIters reg w _ hw =>
     (doSimilarityFusionWs_st_preserves st ws K NIters reg).2 w hw,
   fun st ds K NIters reg d _ hd =>
     (doSimilarityFusion_st_preserves st ds K NIters reg).2 d hd⟩

/-- Witness for C9: a concrete two-array store fused with `K = 1`,
`NIters = 2`, `reg = 1` leaves array 0 unchanged. -/
theorem claim_C9_no_caller_mutation_witness :
    (0 ∈ [0, 1] ∧ 0 < ([W1ex, W2ex] : Store ℚ 2).length) ∧
      readSt (doSimilarityFusionWs_st ([W1ex, W2ex] : Store ℚ 2) [0, 1] 1 2 1).1 0 =
        readSt ([W1ex, W2ex] : Store ℚ 2) 0 :=
  ⟨⟨by decide, by decide⟩,
    (claim_C9_no_caller_mutation 2).2.1 [W1ex, W2ex] [0, 1] 1 2 1 0 (by decide)
      (by decide)⟩

end SimilarityFusion
